import Mathlib

/-!
Verification development for the go-dbase library (FoxPro / dBase `.DBF` +
`.FPT` reader/writer).  The Go source is shallowly embedded: machine bytes
become `Nat` values (with explicit bounds where overflow matters), Go slices
become `List Nat`, fallible Go functions return `Except String _`, and Go
methods that mutate their receiver return the updated state explicitly.

Definitions are translated from the Go source files where those exist
(`dbase.go`, the config validation, `bytes.go`, `database.go`,
`constants.go`).  Parts of the library whose implementation files are not in
the extracted sources (the cursor state machine, the memo allocator and the
row codec live in the io/table implementation files) are modelled from the
specification; each such definition carries a doc comment starting with
`Modelled from the spec:`.
-/

namespace GoDBase

/-! ## File version constants (constants.go) -/

/-- Constant `FoxPro FileVersion = 0x30`. -/
def FoxPro : Nat := 0x30

/-- Constant `FoxProAutoincrement FileVersion = 0x31`. -/
def FoxProAutoincrement : Nat := 0x31

/-- Constant `FoxProVar FileVersion = 0x32`. -/
def FoxProVar : Nat := 0x32

/-- Function `ValidateFileVersion` (dbase.go): if `untested` is set validation is
bypassed; otherwise the version byte must be one of the three tested
FoxPro versions, and anything else is an error. -/
def ValidateFileVersion (version : Nat) (untested : Bool) : Except String Unit :=
  if untested then
    .ok ()
  else if version = FoxPro ∨ version = FoxProAutoincrement ∨ version = FoxProVar then
    .ok ()
  else
    .error "untested DBF file version"

/-! ## Config data-source validation (dbase.go / config)

The four alternative data sources of `Config` are represented by the tests
the Go code performs on them: `Filename != ""`, `Data != nil`,
`Reader != nil`, `IO != nil`. -/

/-- The fields of `Config` that participate in data-source validation and in
the database walker.  `hasData`, `hasReader`, `hasCustom` stand for
`Data != nil`, `Reader != nil` and a non-nil custom io implementation. -/
structure Config where
  filename : List Char
  hasData : Bool
  hasReader : Bool
  hasCustom : Bool
  disableConvertFilenameUnderscores : Bool

/-- Method `Config.validateDataSources`: count the configured data sources; zero or
more than one is an error, exactly one is accepted. -/
def Config.validateDataSources (c : Config) : Except String Unit :=
  let sources :=
    (if c.filename ≠ [] then 1 else 0) + (if c.hasData then 1 else 0) +
      (if c.hasReader then 1 else 0) + (if c.hasCustom then 1 else 0)
  if sources = 0 then
    .error "no data source provided: must set exactly one of Filename, Data, Reader, or IO"
  else if sources > 1 then
    .error "multiple data sources provided: must set exactly one of Filename, Data, Reader, or IO"
  else
    .ok ()

/-- The guard prefix of `OpenTable` (dbase.go): a nil config is rejected,
then the data sources are validated; only after both checks does the
function proceed to the actual open (which is delegated to the io layer). -/
def openTableGuard (config : Option Config) : Except String Config :=
  match config with
  | none => .error "missing dbase configuration"
  | some c =>
    match c.validateDataSources with
    | .error e => .error e
    | .ok () => .ok c

/-- The number of data sources set in a config, as counted by
`validateDataSources`. -/
def Config.sourceCount (c : Config) : Nat :=
  (if c.filename ≠ [] then 1 else 0) + (if c.hasData then 1 else 0) +
    (if c.hasReader then 1 else 0) + (if c.hasCustom then 1 else 0)

/-! ## BytesReadWriteSeeker (bytes.go)

`BytesReadWriteSeeker` wraps a byte slice behind `io.ReadWriteSeeker`.  The
Go struct holds the data, an internal `bytes.Reader` over the same data, and
a position.  The reader is modelled by its position (`Option Int`, `none`
for a nil reader); after construction and after every method the reader
always ranges over exactly `data`, so its seek arithmetic is expressed with
`data.length`.  Go methods mutate the receiver, so each operation returns
the updated state together with its `(result, error)` value. -/

structure BytesReadWriteSeeker where
  data : List Nat
  reader : Option Int
  pos : Int

/-- Method `Size()`: length of the underlying data. -/
def BytesReadWriteSeeker.size (b : BytesReadWriteSeeker) : Nat :=
  b.data.length

/-- Method `Write(p)` (bytes.go): reject an out-of-range position; extend the data
with zero bytes when writing past the end; copy `p` at the position; advance
the position and rebuild the reader at the new position. -/
def BytesReadWriteSeeker.write (b : BytesReadWriteSeeker) (p : List Nat) :
    BytesReadWriteSeeker × Except String Nat :=
  if b.pos < 0 ∨ (b.data.length : Int) < b.pos then
    (b, .error "invalid seek position")
  else
    let pos := b.pos.toNat
    let endPos := pos + p.length
    let data1 :=
      if b.data.length < endPos then
        b.data ++ List.replicate (endPos - b.data.length) 0
      else b.data
    let n := min (data1.length - pos) p.length
    let data2 := data1.take pos ++ p.take n ++ data1.drop (pos + n)
    ({ data := data2, pos := ((pos + n : Nat) : Int),
       reader := some ((pos + n : Nat) : Int) }, .ok n)

/-- The target position computed by the `switch whence` of `Seek`
(bytes.go); `none` for an invalid whence value. -/
def seekTarget (b : BytesReadWriteSeeker) (offset : Int) : Nat → Option Int
  | 0 => some offset
  | 1 => some (b.pos + offset)
  | 2 => some ((b.data.length : Int) + offset)
  | _ => none

/-- Go's `bytes.Reader.Seek`: computes the absolute position from `whence`,
errors when it is negative, otherwise moves the reader there and returns
it. -/
def readerSeek (rpos : Int) (dataLen : Nat) (offset : Int) (whence : Nat) :
    Except String (Int × Int) :=
  let a? : Option Int :=
    match whence with
    | 0 => some offset
    | 1 => some (rpos + offset)
    | 2 => some ((dataLen : Int) + offset)
    | _ => none
  match a? with
  | none => .error "invalid whence"
  | some a =>
    if a < 0 then .error "negative position"
    else .ok (a, a)

/-- Method `Seek(offset, whence)` (bytes.go): nil reader is an error; an invalid
whence or a negative computed target is an error with the state untouched;
otherwise the position is set to the target and the internal reader is asked
to seek, whose result is returned. -/
def BytesReadWriteSeeker.seek (b : BytesReadWriteSeeker) (offset : Int) (whence : Nat) :
    BytesReadWriteSeeker × Except String Int :=
  match b.reader with
  | none => (b, .error "reader is nil")
  | some rpos =>
    match seekTarget b offset whence with
    | none => (b, .error "invalid whence value")
    | some newPos =>
      if newPos < 0 then (b, .error "negative seek position")
      else
        match readerSeek rpos b.data.length offset whence with
        | .error e => ({ b with pos := newPos }, .error e)
        | .ok (rpos2, a) => ({ b with pos := newPos, reader := some rpos2 }, .ok a)

/-! ## Claim theorems: C1 and C8 -/

/-- C1: `ValidateFileVersion(v, untested)` succeeds iff `untested` is true or
`v ∈ {0x30, 0x31, 0x32}`; in particular each of the eight untested legacy
version bytes is accepted exactly when the `untested` flag is set. -/
theorem validateFileVersion_ok_iff :
    (∀ (v : Nat) (untested : Bool),
      (ValidateFileVersion v untested = .ok ()) ↔
        (untested = true ∨ v = 0x30 ∨ v = 0x31 ∨ v = 0x32)) ∧
    (∀ v ∈ [0x02, 0x03, 0x83, 0x8B, 0xCB, 0xF5, 0xFB, 0x43],
      ValidateFileVersion v true = .ok () ∧
        ∃ e, ValidateFileVersion v false = .error e) := by
  constructor
  · intro v untested
    cases untested <;>
      simp [ValidateFileVersion, FoxPro, FoxProAutoincrement, FoxProVar] <;>
      omega
  · intro v hv
    fin_cases hv <;>
      exact ⟨rfl, "untested DBF file version", rfl⟩

/-- C1 witness: concrete evaluations at version `0x30` and at the untested
byte `0x02`. -/
theorem validateFileVersion_ok_iff_witness :
    ValidateFileVersion 0x30 false = .ok () ∧
      ValidateFileVersion 0x02 true = .ok () ∧
      (∃ e, ValidateFileVersion 0x02 false = .error e) := by
  refine ⟨?_, ?_, ?_⟩
  · exact (validateFileVersion_ok_iff.1 0x30 false).2 (by decide)
  · exact (validateFileVersion_ok_iff.2 0x02 (by decide)).1
  · exact (validateFileVersion_ok_iff.2 0x02 (by decide)).2

/-- C8: `OpenTable` rejects a nil config, rejects a config with zero or with
more than one configured data source, and the data-source validation
succeeds exactly when one source is set. -/
theorem openTable_dataSource_validation :
    (∃ e, openTableGuard none = .error e) ∧
    (∀ c : Config,
      (c.sourceCount = 0 ∨ c.sourceCount > 1 →
        ∃ e, openTableGuard (some c) = .error e) ∧
      (c.sourceCount = 1 → c.validateDataSources = .ok () ∧
        openTableGuard (some c) = .ok c)) := by
  refine ⟨⟨"missing dbase configuration", rfl⟩, ?_⟩
  intro c
  have hcount : Config.sourceCount c =
      (if c.filename ≠ [] then 1 else 0) + (if c.hasData then 1 else 0) +
        (if c.hasReader then 1 else 0) + (if c.hasCustom then 1 else 0) := rfl
  constructor
  · intro h
    rcases h with h0 | h1
    · refine ⟨"no data source provided: must set exactly one of Filename, Data, Reader, or IO", ?_⟩
      simp only [openTableGuard, Config.validateDataSources]
      rw [hcount] at h0
      rw [h0]
      rfl
    · refine ⟨"multiple data sources provided: must set exactly one of Filename, Data, Reader, or IO", ?_⟩
      simp only [openTableGuard, Config.validateDataSources]
      rw [hcount] at h1
      have hne : ¬ ((if c.filename ≠ [] then 1 else 0) + (if c.hasData then 1 else 0) +
          (if c.hasReader then 1 else 0) + (if c.hasCustom then 1 else 0) = 0) := by
        omega
      simp only [hne, if_false]
      have : (if c.filename ≠ [] then 1 else 0) + (if c.hasData then 1 else 0) +
          (if c.hasReader then 1 else 0) + (if c.hasCustom then 1 else 0) > 1 := h1
      simp only [this, if_true]
  · intro h1
    rw [hcount] at h1
    have hval : c.validateDataSources = .ok () := by
      simp only [Config.validateDataSources]
      rw [h1]
      rfl
    exact ⟨hval, by simp only [openTableGuard, hval]⟩

/-- C8 witness: the empty config is rejected, a config with only `Data` set
validates. -/
theorem openTable_dataSource_validation_witness :
    (∃ e, openTableGuard (some ⟨[], false, false, false, false⟩) = .error e) ∧
      Config.validateDataSources ⟨[], true, false, false, false⟩ = .ok () := by
  refine ⟨?_, ?_⟩
  · exact ((openTable_dataSource_validation.2 ⟨[], false, false, false, false⟩).1
      (Or.inl (by decide)))
  · exact ((openTable_dataSource_validation.2 ⟨[], true, false, false, false⟩).2
      (by decide)).1

/-- C9: with the position `p` inside `[0, Size()]`, `Write(q)` returns
`len(q)` without error, the size becomes `max (old size) (p + len q)`, the
written range holds `q`, all bytes outside it are unchanged, and the
position advances to `p + len q`. -/
theorem bytesWrite_spec (b : BytesReadWriteSeeker) (q : List Nat)
    (h0 : 0 ≤ b.pos) (h1 : b.pos ≤ (b.size : Int)) :
    (b.write q).2 = .ok q.length ∧
    (b.write q).1.size = max b.size (b.pos.toNat + q.length) ∧
    (∀ i < b.pos.toNat, (b.write q).1.data.get? i = b.data.get? i) ∧
    ((b.write q).1.data.drop b.pos.toNat).take q.length = q ∧
    (∀ i, b.pos.toNat + q.length ≤ i → (b.write q).1.data.get? i = b.data.get? i) ∧
    (b.write q).1.pos = b.pos + q.length := by
  have hnot : ¬ (b.pos < 0 ∨ (b.data.length : Int) < b.pos) := by
    simp only [BytesReadWriteSeeker.size] at h1
    omega
  have hple : b.pos.toNat ≤ b.data.length := by
    simp only [BytesReadWriteSeeker.size] at h1
    omega
  set p := b.pos.toNat with hp
  set L := b.data.length with hL
  -- the (possibly extended) buffer
  set data1 := if L < p + q.length then b.data ++ List.replicate (p + q.length - L) 0
    else b.data with hdata1
  have hd1len : data1.length = max L (p + q.length) := by
    rw [hdata1]
    by_cases hc : L < p + q.length
    · simp only [hc, if_true, List.length_append, List.length_replicate]
      omega
    · simp only [hc, if_false]
      omega
  have hd1ge : p + q.length ≤ data1.length := by omega
  have hn : min (data1.length - p) q.length = q.length := by omega
  have hwrite : b.write q =
      ({ data := data1.take p ++ q.take (min (data1.length - p) q.length) ++
          data1.drop (p + min (data1.length - p) q.length),
         pos := ((p + min (data1.length - p) q.length : Nat) : Int),
         reader := some ((p + min (data1.length - p) q.length : Nat) : Int) },
        .ok (min (data1.length - p) q.length)) := by
    simp only [BytesReadWriteSeeker.write, hnot, if_false]
  rw [hn] at hwrite
  have htq : q.take q.length = q := List.take_length q
  rw [htq] at hwrite
  have hd1get_lt : ∀ i, i < L → data1.get? i = b.data.get? i := by
    intro i hi
    rw [hdata1]
    by_cases hc : L < p + q.length
    · simp only [hc, if_true]
      exact List.get?_append (by omega)
    · simp [hc]
  have hd1get_ge : ∀ i, p + q.length ≤ i → data1.get? i = b.data.get? i := by
    intro i hi
    by_cases hiL : i < L
    · exact hd1get_lt i hiL
    · have h1 : data1.get? i = none := by
        rw [List.get?_eq_none]
        omega
      have h2 : b.data.get? i = none := by
        rw [List.get?_eq_none]
        omega
      rw [h1, h2]
  have htakelen : (data1.take p).length = p := by
    rw [List.length_take]
    omega
  refine ⟨by rw [hwrite], ?_, ?_, ?_, ?_, ?_⟩
  · rw [hwrite]
    simp only [BytesReadWriteSeeker.size, List.length_append, List.length_take,
      List.length_drop]
    omega
  · intro i hi
    rw [hwrite]
    simp only
    rw [List.append_assoc]
    rw [List.get?_append (by omega : i < (data1.take p).length)]
    rw [List.get?_take hi]
    exact hd1get_lt i (by omega)
  · rw [hwrite]
    simp only
    rw [List.append_assoc]
    have hdrop : ((data1.take p ++ (q ++ data1.drop (p + q.length))).drop p) =
        q ++ data1.drop (p + q.length) := List.drop_left' htakelen
    rw [hdrop]
    have := List.take_left q (data1.drop (p + q.length))
    exact this
  · intro i hi
    rw [hwrite]
    simp only
    have hlen2 : (data1.take p ++ q).length = p + q.length := by
      rw [List.length_append, htakelen]
    rw [List.get?_append_right (by omega : (data1.take p ++ q).length ≤ i)]
    rw [List.get?_drop]
    have heq : p + q.length + (i - (data1.take p ++ q).length) = i := by
      rw [hlen2]
      omega
    rw [heq]
    exact hd1get_ge i hi
  · rw [hwrite]
    simp only
    omega

/-- C9 witness: writing `[9,9,9]` at position 1 of `[1,2,3]` succeeds,
extends the buffer to `[1,9,9,9]` and moves the position to 4. -/
theorem bytesWrite_spec_witness :
    ((⟨[1, 2, 3], some 1, 1⟩ : BytesReadWriteSeeker).write [9, 9, 9]).2 = .ok 3 ∧
    ((⟨[1, 2, 3], some 1, 1⟩ : BytesReadWriteSeeker).write [9, 9, 9]).1.data = [1, 9, 9, 9] ∧
    ((⟨[1, 2, 3], some 1, 1⟩ : BytesReadWriteSeeker).write [9, 9, 9]).1.pos = 4 := by
  refine ⟨?_, by decide, by decide⟩
  exact (bytesWrite_spec ⟨[1, 2, 3], some 1, 1⟩ [9, 9, 9] (by decide) (by decide)).1

/-- C10: with a non-nil (and in-sync) reader, `Seek` errors on an invalid
whence or on a negative computed target, leaving position and data
untouched; otherwise the position becomes the target and the target is
returned without error. -/
theorem bytesSeek_spec (b : BytesReadWriteSeeker) (offset : Int) (whence : Nat)
    (hr : b.reader = some b.pos) :
    (seekTarget b offset whence = none →
      (b.seek offset whence).1 = b ∧ ∃ e, (b.seek offset whence).2 = .error e) ∧
    (∀ t, seekTarget b offset whence = some t → t < 0 →
      (b.seek offset whence).1 = b ∧ ∃ e, (b.seek offset whence).2 = .error e) ∧
    (∀ t, seekTarget b offset whence = some t → 0 ≤ t →
      (b.seek offset whence).1.data = b.data ∧ (b.seek offset whence).1.pos = t ∧
        (b.seek offset whence).2 = .ok t) := by
  rcases whence with _ | _ | _ | w
  · refine ⟨fun h => Option.noConfusion h, fun t ht hlt => ?_, fun t ht hge => ?_⟩
    · injection (show (some offset : Option Int) = some t from ht) with het
      subst het
      unfold BytesReadWriteSeeker.seek
      rw [hr]
      dsimp only [seekTarget]
      rw [if_pos hlt]
      exact ⟨rfl, "negative seek position", rfl⟩
    · injection (show (some offset : Option Int) = some t from ht) with het
      subst het
      unfold BytesReadWriteSeeker.seek
      rw [hr]
      dsimp only [seekTarget, readerSeek]
      rw [if_neg (not_lt.2 hge), if_neg (not_lt.2 hge)]
      exact ⟨rfl, rfl, rfl⟩
  · refine ⟨fun h => Option.noConfusion h, fun t ht hlt => ?_, fun t ht hge => ?_⟩
    · injection (show (some (b.pos + offset) : Option Int) = some t from ht) with het
      subst het
      unfold BytesReadWriteSeeker.seek
      rw [hr]
      dsimp only [seekTarget]
      rw [if_pos hlt]
      exact ⟨rfl, "negative seek position", rfl⟩
    · injection (show (some (b.pos + offset) : Option Int) = some t from ht) with het
      subst het
      unfold BytesReadWriteSeeker.seek
      rw [hr]
      dsimp only [seekTarget, readerSeek]
      rw [if_neg (not_lt.2 hge), if_neg (not_lt.2 hge)]
      exact ⟨rfl, rfl, rfl⟩
  · refine ⟨fun h => Option.noConfusion h, fun t ht hlt => ?_, fun t ht hge => ?_⟩
    · injection (show (some ((b.data.length : Int) + offset) : Option Int) = some t from ht)
        with het
      subst het
      unfold BytesReadWriteSeeker.seek
      rw [hr]
      dsimp only [seekTarget]
      rw [if_pos hlt]
      exact ⟨rfl, "negative seek position", rfl⟩
    · injection (show (some ((b.data.length : Int) + offset) : Option Int) = some t from ht)
        with het
      subst het
      unfold BytesReadWriteSeeker.seek
      rw [hr]
      dsimp only [seekTarget, readerSeek]
      rw [if_neg (not_lt.2 hge), if_neg (not_lt.2 hge)]
      exact ⟨rfl, rfl, rfl⟩
  · refine ⟨fun _ => ?_, fun t ht _ => Option.noConfusion ht,
      fun t ht _ => Option.noConfusion ht⟩
    unfold BytesReadWriteSeeker.seek
    rw [hr]
    exact ⟨rfl, "invalid whence value", rfl⟩

/-- C10 witness: on `⟨[5,6], reader at 0, pos 0⟩`, a relative seek to −1
fails leaving the state unchanged, and a seek from the end to 6 succeeds. -/
theorem bytesSeek_spec_witness :
    (((⟨[5, 6], some 0, 0⟩ : BytesReadWriteSeeker).seek (-1) 1).1 =
        (⟨[5, 6], some 0, 0⟩ : BytesReadWriteSeeker) ∧
      (∃ e, ((⟨[5, 6], some 0, 0⟩ : BytesReadWriteSeeker).seek (-1) 1).2 = .error e)) ∧
    ((⟨[5, 6], some 0, 0⟩ : BytesReadWriteSeeker).seek 4 2).1.pos = 6 ∧
    ((⟨[5, 6], some 0, 0⟩ : BytesReadWriteSeeker).seek 4 2).2 = .ok 6 := by
  refine ⟨?_, ?_, ?_⟩
  · exact (bytesSeek_spec ⟨[5, 6], some 0, 0⟩ (-1) 1 rfl).2.1 (-1) (by decide) (by decide)
  · exact ((bytesSeek_spec ⟨[5, 6], some 0, 0⟩ 4 2 rfl).2.2 6 (by decide) (by decide)).2.1
  · exact ((bytesSeek_spec ⟨[5, 6], some 0, 0⟩ 4 2 rfl).2.2 6 (by decide) (by decide)).2.2

/-! ## Table cursor state machine (spec §4.7)

The io-layer implementations of `GoTo` and `Skip` are not among the
extracted source files (only their interface declarations and wrappers in
dbase.go are), so the cursor is modelled from the spec. -/

/-- Modelled from the spec: cursor states of §4.7 — `bof` (before row 0,
distinct from row 0), `row n` for `0 ≤ n < record-count`, and `eof` (past
the last row).  The io implementation holding the row pointer is not in the
extracted sources. -/
inductive Cursor where
  | bof : Cursor
  | row : Nat → Cursor
  | eof : Cursor
deriving DecidableEq

/-- Modelled from the spec: the table state the cursor operations act on. -/
structure TableState where
  recordCount : Nat
  cursor : Cursor
deriving DecidableEq

/-- Modelled from the spec: „cursor-as-integer“ — BOF counts as −1, EOF as
record-count. -/
def Cursor.asInt : Cursor → Nat → Int
  | .bof, _ => -1
  | .row n, _ => n
  | .eof, rc => rc

/-- Modelled from the spec: an error kind; only the EOF kind is needed
here. -/
inductive ErrKind where
  | eofErr : ErrKind
  | bofErr : ErrKind
deriving DecidableEq

/-- Modelled from the spec: `GoTo(n)` — `at(n)` when `n < record-count`,
otherwise EOF plus an error of kind EOF.  The io implementation is not in
the extracted sources; dbase.go documents it as "Returns an EOF error if
positioning beyond the end of file and positions the pointer at
lastRow+1". -/
def GoTo (s : TableState) (n : Nat) : TableState × Except ErrKind Unit :=
  if n < s.recordCount then ({ s with cursor := .row n }, .ok ())
  else ({ s with cursor := .eof }, .error .eofErr)

/-- Modelled from the spec: `Skip(k)` — target := cursor-as-integer + k,
clamped to `[0, record-count]`; EOF when the clamp hits record-count, else
`at(target)`.  `Skip` has no error return (its Go signature is
`Skip(file, offset int64)`), and it inspects no row contents, so deleted
rows are not skipped.  The io implementation is not in the extracted
sources. -/
def Skip (s : TableState) (k : Int) : TableState :=
  let target := s.cursor.asInt s.recordCount + k
  let clamped := max 0 (min target (s.recordCount : Int))
  if clamped = (s.recordCount : Int) then { s with cursor := .eof }
  else { s with cursor := .row clamped.toNat }

/-- C4: `Skip(k)` is total (it returns a state, never an error), preserves
the record count, and positions the cursor by clamping
`cursor-as-integer + k` to `[0, record-count]`: EOF exactly when the
clamped target equals the record count (the sum reaches the count, or the
table is empty), otherwise at row `max 0 (sum)`, which is below the
count. -/
theorem skip_spec (s : TableState) (k : Int) :
    (Skip s k).recordCount = s.recordCount ∧
    ((Skip s k).cursor = .eof ↔
      ((s.recordCount : Int) ≤ s.cursor.asInt s.recordCount + k ∨ s.recordCount = 0)) ∧
    (∀ m : Nat, (Skip s k).cursor = .row m ↔
      ((m : Int) = max 0 (s.cursor.asInt s.recordCount + k) ∧ m < s.recordCount)) := by
  unfold Skip
  by_cases hc : max 0 (min (s.cursor.asInt s.recordCount + k) (s.recordCount : Int)) =
      (s.recordCount : Int)
  · rw [if_pos hc]
    refine ⟨rfl, ?_, ?_⟩
    · exact ⟨fun _ => by omega, fun _ => rfl⟩
    · intro m
      refine ⟨fun h => Cursor.noConfusion h, ?_⟩
      rintro ⟨h1, h2⟩
      exfalso
      omega
  · rw [if_neg hc]
    refine ⟨rfl, ?_, ?_⟩
    · refine ⟨fun h => Cursor.noConfusion h, fun h => absurd (by omega) hc⟩
    · intro m
      constructor
      · intro h
        injection h with hm
        omega
      · rintro ⟨h1, h2⟩
        have hmm : (max 0 (min (s.cursor.asInt s.recordCount + k)
            (s.recordCount : Int))).toNat = m := by omega
        show Cursor.row _ = Cursor.row m
        rw [hmm]

/-- C4 witness: on a 3-row table, skipping +5 from row 0 lands at EOF, and
skipping −5 from row 1 clamps to row 0. -/
theorem skip_spec_witness :
    (Skip ⟨3, .row 0⟩ 5).cursor = .eof ∧ (Skip ⟨3, .row 1⟩ (-5)).cursor = .row 0 :=
  ⟨(skip_spec ⟨3, .row 0⟩ 5).2.1.mpr (Or.inl (by decide)),
    ((skip_spec ⟨3, .row 1⟩ (-5)).2.2 0).mpr ⟨by decide, by decide⟩⟩

/-- C5: `GoTo(n)` positions the cursor at row `n` and succeeds when
`n < record-count`; otherwise it positions the cursor at EOF and returns an
error of kind EOF. -/
theorem goTo_spec (s : TableState) (n : Nat) :
    (n < s.recordCount →
      GoTo s n = ({ s with cursor := .row n }, .ok ())) ∧
    (s.recordCount ≤ n →
      GoTo s n = ({ s with cursor := .eof }, .error .eofErr)) := by
  constructor
  · intro h
    unfold GoTo
    rw [if_pos h]
  · intro h
    unfold GoTo
    rw [if_neg (by omega)]

/-- C5 witness: on a 3-row table, `GoTo 1` lands on row 1 and succeeds,
`GoTo 3` lands on EOF with an EOF error. -/
theorem goTo_spec_witness :
    GoTo ⟨3, .bof⟩ 1 = (⟨3, .row 1⟩, .ok ()) ∧
      GoTo ⟨3, .row 1⟩ 3 = (⟨3, .eof⟩, .error .eofErr) :=
  ⟨(goTo_spec ⟨3, .bof⟩ 1).1 (by decide), (goTo_spec ⟨3, .row 1⟩ 3).2 (by decide)⟩

/-! ## Memo allocator (spec §4.5)

The io-layer implementation of `WriteMemo` / `WriteMemoHeader` is not among
the extracted source files (dbase.go only declares and delegates them), so
the FPT block allocator is modelled from the spec. -/

/-- Modelled from the spec: the memo-header state the allocator mutates —
`next-free-block` and the block size.  The io implementation holding it is
not in the extracted sources. -/
structure MemoState where
  nextFree : Nat
  blockSize : Nat
deriving DecidableEq

/-- Modelled from the spec: §4.5 `append(payload, is_text)` — the new memo
starts at block `next-free-block`, occupies
`⌈(len(payload)+8)/block-size⌉` blocks, and `next-free-block` advances past
them.  The byte writes of steps 3 and 5 (chunk header, payload, header
rewrite) do not affect the allocation state and are not modelled. -/
def memoAppend (m : MemoState) (payloadLen : Nat) : MemoState × Nat :=
  let blockIndex := m.nextFree
  let required := (payloadLen + 8 + m.blockSize - 1) / m.blockSize
  ({ m with nextFree := blockIndex + required }, blockIndex)

/-- Modelled from the spec: §4.5 `rewrite(old_index, payload, is_text)` is
always `append`; `old_index` is ignored, never reclaimed. -/
def memoRewrite (m : MemoState) (_oldIndex : Nat) (payloadLen : Nat) : MemoState × Nat :=
  memoAppend m payloadLen

/-- Modelled from the spec: one memo write — a fresh append or a rewrite of
an existing memo at some old block index. -/
inductive MemoOp where
  | append : Nat → MemoOp
  | rewrite : Nat → Nat → MemoOp
deriving DecidableEq

/-- Modelled from the spec: apply one memo write to the allocator state,
yielding the new state and the block index returned to the caller. -/
def memoStep (m : MemoState) : MemoOp → MemoState × Nat
  | .append len => memoAppend m len
  | .rewrite old len => memoRewrite m old len

/-- Modelled from the spec: run a sequence of memo writes. -/
def memoRun (m : MemoState) : List MemoOp → MemoState
  | [] => m
  | op :: ops => memoRun (memoStep m op).1 ops

/-- One memo write never decreases `next-free-block`. -/
theorem memoStep_mono (m : MemoState) (op : MemoOp) :
    m.nextFree ≤ (memoStep m op).1.nextFree := by
  cases op <;>
    exact Nat.le_add_right _ _

/-- C3: over any sequence of memo writes, `next-free-block` is
non-decreasing; each write returns a block index equal to (hence at least)
the pre-state `next-free-block` and advances `next-free-block` strictly
when the block size is positive; and a rewrite of an existing memo (one
whose old block index lies below `next-free-block`) returns a fresh index
strictly above the old one — old blocks are never reused or reclaimed. -/
theorem memo_append_monotone :
    (∀ (m : MemoState) (ops : List MemoOp), m.nextFree ≤ (memoRun m ops).nextFree) ∧
    (∀ (m : MemoState) (op : MemoOp), (memoStep m op).2 = m.nextFree) ∧
    (∀ (m : MemoState) (len : Nat), 1 ≤ m.blockSize →
      m.nextFree < (memoAppend m len).1.nextFree) ∧
    (∀ (m : MemoState) (old len : Nat), old < m.nextFree →
      old < (memoRewrite m old len).2 ∧
        (memoRewrite m old len).2 = m.nextFree) := by
  refine ⟨?_, ?_, ?_, ?_⟩
  · intro m ops
    induction ops generalizing m with
    | nil => exact le_refl _
    | cons op ops ih =>
      exact le_trans (memoStep_mono m op) (ih _)
  · intro m op
    cases op <;> rfl
  · intro m len h
    simp only [memoAppend]
    have : 1 ≤ (len + 8 + m.blockSize - 1) / m.blockSize :=
      Nat.one_le_div_iff (by omega) |>.mpr (by omega)
    omega
  · intro m old len h
    exact ⟨h, rfl⟩

/-- C3 witness: with block size 64 and `next-free-block` 8, appending a
100-byte memo returns block 8 and advances `next-free-block` to 10; a
rewrite of the memo at old block 3 returns fresh block 8, not 3. -/
theorem memo_append_monotone_witness :
    (memoAppend ⟨8, 64⟩ 100).2 = 8 ∧ (memoAppend ⟨8, 64⟩ 100).1.nextFree = 10 ∧
    8 < (memoAppend ⟨8, 64⟩ 100).1.nextFree ∧
    3 < (memoRewrite ⟨8, 64⟩ 3 100).2 ∧ (memoRewrite ⟨8, 64⟩ 3 100).2 = 8 := by
  refine ⟨by decide, by decide, ?_, ?_, ?_⟩
  · exact lt_of_lt_of_le (memo_append_monotone.2.2.1 ⟨8, 64⟩ 100 (by decide))
      (le_of_eq rfl)
  · exact (memo_append_monotone.2.2.2 ⟨8, 64⟩ 3 100 (by decide)).1
  · exact (memo_append_monotone.2.2.2 ⟨8, 64⟩ 3 100 (by decide)).2

/-! ## Database walker (database.go)

Strings are modelled as `List Char`.  The enumeration loop of
`OpenDatabase` is translated from database.go; the `Search` it calls is an
io-layer method whose implementation is not in the extracted sources and is
modelled from the spec (§4.7). -/

/-- Go's `strings.Trim(s, " ")`: strip leading and trailing spaces. -/
def trimSpaces (s : List Char) : List Char :=
  ((s.dropWhile (· = ' ')).reverse.dropWhile (· = ' ')).reverse

/-- The decoded fields of one container-table row that `OpenDatabase`
consumes, together with the row's deletion flag. -/
structure ContainerRow where
  objectType : List Char
  objectName : List Char
  deleted : Bool
deriving DecidableEq

/-- The search value used by `OpenDatabase`: the string `"Table"`. -/
def tableTypeName : List Char := ['T', 'a', 'b', 'l', 'e']

/-- Modelled from the spec: §4.7 `Search(field, exact=true)` — linear scan
in file order keeping the active rows whose decoded column value equals the
field value exactly.  The io-layer implementation is not in the extracted
sources. -/
def searchExact (rows : List ContainerRow) (value : List Char) : List ContainerRow :=
  rows.filter (fun r => decide (r.objectType = value) && !r.deleted)

/-- Go's `path.Join` on already-clean arguments: directory, separator, name.
(Go's `path.Join` additionally runs `path.Clean`; for the slash-free table
names and clean directories the walker passes, the join is exactly this.) -/
def pathJoin (dir name : List Char) : List Char := dir ++ '/' :: name

/-- The `.DBF` table-file extension (constants.go). -/
def dbfExt : List Char := ['.', 'D', 'B', 'F']

/-- database.go lines 86-105: the filesystem path of a member table — the
container's directory joined with the table name plus the `.DBF`
extension, the name's underscores first replaced by spaces unless
`DisableConvertFilenameUnderscores` is set.  `strings.ReplaceAll(name,
"_", " ")` is the character map below: the pattern is a single ASCII byte,
so occurrences are exactly the `'_'` characters. -/
def resolveTablePath (dir tableName : List Char) (disableConvert : Bool) : List Char :=
  let tablePath := pathJoin dir (tableName ++ dbfExt)
  if !disableConvert then
    pathJoin dir ((tableName.map fun c => if c = '_' then ' ' else c) ++ dbfExt)
  else
    tablePath

/-- database.go lines 56-114: the member-table loop of `OpenDatabase` over
the rows returned by the search — trim each `OBJECTNAME`, skip empty
names, open the table (an open error aborts the walk), and key the opened
table under the trimmed name in the table map.  `openT` abstracts the
config building plus `OpenTable` for one table name. -/
def openDatabaseLoop {τ : Type} (openT : List Char → Except String τ) :
    List ContainerRow → (List Char → Option τ) → Except String (List Char → Option τ)
  | [], tables => .ok tables
  | row :: rest, tables =>
    let tableName := trimSpaces row.objectName
    if tableName = [] then
      openDatabaseLoop openT rest tables
    else
      match openT tableName with
      | .error e => .error e
      | .ok t =>
        openDatabaseLoop openT rest (fun x => if x = tableName then some t else tables x)

/-- database.go lines 42-115: `OpenDatabase` opens the container as a
normal table, runs an exact-match `Search` for `OBJECTTYPE == "Table"`,
and folds the member-table loop over the result starting from an empty
table map. -/
def openDatabaseTables {τ : Type} (rows : List ContainerRow)
    (openT : List Char → Except String τ) : Except String (List Char → Option τ) :=
  openDatabaseLoop openT (searchExact rows tableTypeName) (fun _ => none)

/-- Invariant of the member-table loop: when every open succeeds, the loop
succeeds, maps each non-empty trimmed name of the processed rows to its
opened table, and leaves every other key as the accumulator had it. -/
theorem openDatabaseLoop_spec {τ : Type} (openT : List Char → Except String τ)
    (h : ∀ name, ∃ t, openT name = .ok t) :
    ∀ (rs : List ContainerRow) (acc : List Char → Option τ),
      ∃ m, openDatabaseLoop openT rs acc = .ok m ∧
        ∀ k : List Char,
          ((k ≠ [] ∧ ∃ r ∈ rs, trimSpaces r.objectName = k) →
            ∃ t, m k = some t ∧ openT k = .ok t) ∧
          (¬(k ≠ [] ∧ ∃ r ∈ rs, trimSpaces r.objectName = k) → m k = acc k) := by
  intro rs
  induction rs with
  | nil =>
    intro acc
    refine ⟨acc, rfl, fun k => ⟨?_, fun _ => rfl⟩⟩
    rintro ⟨_, r, hr, _⟩
    exact absurd hr (List.not_mem_nil r)
  | cons row rest ih =>
    intro acc
    by_cases hname : trimSpaces row.objectName = []
    · obtain ⟨m, hm, hk⟩ := ih acc
      refine ⟨m, ?_, fun k => ⟨?_, ?_⟩⟩
      · rw [openDatabaseLoop, if_pos hname]
        exact hm
      · rintro ⟨hne, r, hr, htrim⟩
        rcases List.mem_cons.1 hr with hr | hr
        · subst hr
          exact absurd (htrim ▸ hname) (htrim ▸ hne)
        · exact (hk k).1 ⟨hne, r, hr, htrim⟩
      · intro hnot
        refine (hk k).2 ?_
        rintro ⟨hne, r, hr, htrim⟩
        exact hnot ⟨hne, r, List.mem_cons_of_mem _ hr, htrim⟩
    · obtain ⟨t, ht⟩ := h (trimSpaces row.objectName)
      obtain ⟨m, hm, hk⟩ := ih (fun x => if x = trimSpaces row.objectName then some t else acc x)
      refine ⟨m, ?_, fun k => ⟨?_, ?_⟩⟩
      · rw [openDatabaseLoop, if_neg hname, ht]
        exact hm
      · rintro ⟨hne, r, hr, htrim⟩
        by_cases hkrest : ∃ r ∈ rest, trimSpaces r.objectName = k
        · exact (hk k).1 ⟨hne, hkrest⟩
        · have hkrow : trimSpaces row.objectName = k := by
            rcases List.mem_cons.1 hr with hr | hr
            · rw [← hr]
              exact htrim
            · exact absurd ⟨r, hr, htrim⟩ hkrest
          have hmk : m k = if k = trimSpaces row.objectName then some t else acc k :=
            (hk k).2 (by
              rintro ⟨_, r', hr', htrim'⟩
              exact hkrest ⟨r', hr', htrim'⟩)
          rw [hmk, if_pos hkrow.symm]
          exact ⟨t, rfl, hkrow ▸ ht⟩
      · intro hnot
        have hkne : k ≠ trimSpaces row.objectName ∨ k = [] := by
          by_cases hke : k = []
          · exact Or.inr hke
          · refine Or.inl fun he => hnot ⟨hke, row, List.mem_cons_self row rest, he.symm⟩
        have hmk : m k = if k = trimSpaces row.objectName then some t else acc k :=
          (hk k).2 (by
            rintro ⟨hne, r', hr', htrim'⟩
            exact hnot ⟨hne, r', List.mem_cons_of_mem _ hr', htrim'⟩)
        rcases hkne with hkne | hke
        · rw [hmk, if_neg hkne]
        · rw [hmk, if_neg (by rw [hke]; exact fun he => hname he.symm)]

/-- C6: when every member open succeeds, `OpenDatabase`'s enumeration —
exact-match search on `OBJECTTYPE == "Table"` followed by the member-table
loop — produces a table map whose entry at key `k` is the table opened for
`k` exactly when `k` is the non-empty space-trimmed `OBJECTNAME` of some
active `"Table"` row; all other keys are absent. -/
theorem openDatabase_tables_spec {τ : Type} (rows : List ContainerRow)
    (openT : List Char → Except String τ) (h : ∀ name, ∃ t, openT name = .ok t) :
    ∃ m, openDatabaseTables rows openT = .ok m ∧
      ∀ k : List Char,
        ((k ≠ [] ∧ ∃ r ∈ rows, r.objectType = tableTypeName ∧ r.deleted = false ∧
            trimSpaces r.objectName = k) →
          ∃ t, m k = some t ∧ openT k = .ok t) ∧
        (¬(k ≠ [] ∧ ∃ r ∈ rows, r.objectType = tableTypeName ∧ r.deleted = false ∧
            trimSpaces r.objectName = k) →
          m k = none) := by
  obtain ⟨m, hm, hk⟩ := openDatabaseLoop_spec openT h (searchExact rows tableTypeName)
    (fun _ => none)
  have hmem : ∀ (r : ContainerRow), r ∈ searchExact rows tableTypeName ↔
      (r ∈ rows ∧ r.objectType = tableTypeName ∧ r.deleted = false) := by
    intro r
    simp [searchExact, List.mem_filter]
  refine ⟨m, hm, fun k => ⟨?_, ?_⟩⟩
  · rintro ⟨hne, r, hr, htype, hdel, htrim⟩
    exact (hk k).1 ⟨hne, r, (hmem r).2 ⟨hr, htype, hdel⟩, htrim⟩
  · intro hnot
    exact (hk k).2 (by
      rintro ⟨hne, r, hr, htrim⟩
      obtain ⟨hr', htype, hdel⟩ := (hmem r).1 hr
      exact hnot ⟨hne, r, hr', htype, hdel, htrim⟩)

/-- C6 witness: a container with one active `"Table"` row named
`" emp "` (trimming to `"emp"`) and one non-table row; with an opener
that always yields table 7, the resulting map holds `emp ↦ 7` and nothing
at `"zz"`. -/
theorem openDatabase_tables_spec_witness :
    ∃ m, openDatabaseTables
        [⟨tableTypeName, [' ', 'e', 'm', 'p', ' '], false⟩, ⟨['X'], ['z', 'z'], false⟩]
        (fun _ => (.ok 7 : Except String Nat)) = .ok m ∧
      m ['e', 'm', 'p'] = some 7 ∧ m ['z', 'z'] = none := by
  obtain ⟨m, hm, hk⟩ := openDatabase_tables_spec
    [⟨tableTypeName, [' ', 'e', 'm', 'p', ' '], false⟩, ⟨['X'], ['z', 'z'], false⟩]
    (fun _ => (.ok 7 : Except String Nat)) (fun _ => ⟨7, rfl⟩)
  refine ⟨m, hm, ?_, ?_⟩
  · obtain ⟨t, hmt, hot⟩ := (hk ['e', 'm', 'p']).1
      ⟨by decide, ⟨tableTypeName, [' ', 'e', 'm', 'p', ' '], false⟩, by decide⟩
    cases hot
    exact hmt
  · exact (hk ['z', 'z']).2 (by decide)

/-- C7: the filesystem path of a member table is the container's directory
joined with the (possibly underscore-converted) table name plus `.DBF`:
with conversion disabled the name is used verbatim, otherwise the name
component is character-for-character the table name with each `'_'`
replaced by `' '`. -/
theorem resolveTablePath_spec (dir tableName : List Char) :
    resolveTablePath dir tableName true = pathJoin dir (tableName ++ dbfExt) ∧
    (∃ converted, resolveTablePath dir tableName false = pathJoin dir (converted ++ dbfExt) ∧
      converted.length = tableName.length ∧
      ∀ i : Nat, converted.get? i =
        (tableName.get? i).map fun c => if c = '_' then ' ' else c) := by
  refine ⟨rfl, ⟨tableName.map fun c => if c = '_' then ' ' else c, rfl, ?_, ?_⟩⟩
  · exact List.length_map _ _
  · intro i
    exact List.get?_map _ _ _

/-! ## Row codec helpers (spec §4.6)

The row encoder/decoder lives in the table/conversion implementation files,
which are not among the extracted sources; the codec below is modelled from
the spec.  These helpers implement little-endian byte strings, two's
complement, ASCII decimal digits, space padding/trimming and the LSB-first
bit packing of the null-flag column. -/

/-- Little-endian byte string of fixed width `n` for a natural value. -/
def leBytes : Nat → Nat → List Nat
  | 0, _ => []
  | n + 1, v => v % 256 :: leBytes n (v / 256)

/-- Value of a little-endian byte string. -/
def leVal : List Nat → Nat
  | [] => 0
  | b :: bs => b % 256 + 256 * leVal bs

theorem leBytes_length (n v : Nat) : (leBytes n v).length = n := by
  induction n generalizing v with
  | zero => rfl
  | succ n ih => simp [leBytes, ih]

theorem leVal_leBytes (n v : Nat) (h : v < 256 ^ n) : leVal (leBytes n v) = v := by
  induction n generalizing v with
  | zero =>
    simp [leBytes, leVal]
    omega
  | succ n ih =>
    have hdiv : v / 256 < 256 ^ n := by
      rw [Nat.div_lt_iff_lt_mul (by omega)]
      calc v < 256 ^ (n + 1) := h
        _ = 256 ^ n * 256 := by rw [pow_succ]
    simp only [leBytes, leVal, ih (v / 256) hdiv]
    omega

/-- Two's-complement encoding of an integer into `8*n` bits. -/
def toUnsigned (n : Nat) (i : Int) : Nat :=
  (i % ((256 : Int) ^ n)).toNat

/-- Two's-complement reading of an `8*n`-bit unsigned value. -/
def fromUnsigned (n : Nat) (u : Nat) : Int :=
  if 2 * u < 256 ^ n then (u : Int) else (u : Int) - (256 : Int) ^ n

theorem fromUnsigned_toUnsigned (n : Nat) (i : Int) (half : Int)
    (hH : 2 * half = (256 : Int) ^ n) (h1 : -half ≤ i) (h2 : i < half) :
    fromUnsigned n (toUnsigned n i) = i := by
  have hMpos : (0 : Int) < (256 : Int) ^ n := pow_pos (by omega) n
  have hcast : ((256 ^ n : Nat) : Int) = (256 : Int) ^ n := by push_cast; ring
  have hmod0 : 0 ≤ i % ((256 : Int) ^ n) := Int.emod_nonneg i (by omega)
  have hu : (toUnsigned n i : Int) = i % ((256 : Int) ^ n) :=
    Int.toNat_of_nonneg hmod0
  have hmodeq : i % ((256 : Int) ^ n) = i ∨
      i % ((256 : Int) ^ n) = i + (256 : Int) ^ n := by
    by_cases hi : 0 ≤ i
    · exact Or.inl (Int.emod_eq_of_lt hi (by omega))
    · right
      have heq : (i + (256 : Int) ^ n * 1) % ((256 : Int) ^ n) = i % ((256 : Int) ^ n) :=
        Int.add_mul_emod_self_left i ((256 : Int) ^ n) 1
      rw [mul_one] at heq
      rw [← heq]
      exact Int.emod_eq_of_lt (by omega) (by omega)
  rcases hmodeq with he | he
  · have hu' : (toUnsigned n i : Int) = i := by rw [hu, he]
    have hcond : 2 * toUnsigned n i < 256 ^ n := by omega
    unfold fromUnsigned
    rw [if_pos hcond]
    exact hu'
  · have hu' : (toUnsigned n i : Int) = i + (256 : Int) ^ n := by rw [hu, he]
    have hcond : ¬ 2 * toUnsigned n i < 256 ^ n := by omega
    unfold fromUnsigned
    rw [if_neg hcond]
    omega

theorem toUnsigned_lt (n : Nat) (i : Int) : toUnsigned n i < 256 ^ n := by
  unfold toUnsigned
  have hpow : (0 : Int) < (256 : Int) ^ n := pow_pos (by omega) n
  have := Int.emod_lt_of_pos i hpow
  have hcast : ((256 ^ n : Nat) : Int) = (256 : Int) ^ n := by push_cast; ring
  omega

/-- ASCII decimal digits of a natural number, most significant first. -/
def natDigits (n : Nat) : List Nat :=
  if h : n < 10 then [48 + n] else natDigits (n / 10) ++ [48 + n % 10]
termination_by n
decreasing_by
  exact Nat.div_lt_self (by omega) (by omega)

/-- Value of a string of ASCII decimal digits, most significant first. -/
def digitsVal (l : List Nat) : Nat :=
  l.foldl (fun acc d => acc * 10 + (d - 48)) 0

/-- Zero-padded fixed-width ASCII decimal. -/
def padDigits (w n : Nat) : List Nat :=
  List.replicate (w - (natDigits n).length) 48 ++ natDigits n

theorem digitsVal_aux (l : List Nat) (a : Nat) :
    l.foldl (fun acc d => acc * 10 + (d - 48)) a =
      a * 10 ^ l.length + digitsVal l := by
  induction l generalizing a with
  | nil => simp [digitsVal]
  | cons d l ih =>
    simp only [List.foldl_cons, digitsVal, List.length_cons]
    rw [ih (a * 10 + (d - 48)), ih (0 * 10 + (d - 48))]
    ring

theorem digitsVal_append (l1 l2 : List Nat) :
    digitsVal (l1 ++ l2) = digitsVal l1 * 10 ^ l2.length + digitsVal l2 := by
  unfold digitsVal
  rw [List.foldl_append]
  exact digitsVal_aux l2 _

theorem digitsVal_natDigits (n : Nat) : digitsVal (natDigits n) = n := by
  induction n using Nat.strong_induction_on with
  | _ n ih =>
    by_cases h : n < 10
    · rw [natDigits, dif_pos h]
      simp [digitsVal]
    · rw [natDigits, dif_neg h, digitsVal_append,
        ih (n / 10) (Nat.div_lt_self (by omega) (by omega))]
      simp [digitsVal]
      omega

theorem natDigits_mem (n : Nat) : ∀ d ∈ natDigits n, 48 ≤ d ∧ d ≤ 57 := by
  induction n using Nat.strong_induction_on with
  | _ n ih =>
    intro d hd
    by_cases h : n < 10
    · rw [natDigits, dif_pos h] at hd
      simp at hd
      omega
    · rw [natDigits, dif_neg h] at hd
      rcases List.mem_append.1 hd with hd | hd
      · exact ih (n / 10) (Nat.div_lt_self (by omega) (by omega)) d hd
      · simp at hd
        have : n % 10 < 10 := Nat.mod_lt n (by omega)
        omega

theorem natDigits_ne_nil (n : Nat) : natDigits n ≠ [] := by
  by_cases h : n < 10
  · rw [natDigits, dif_pos h]
    simp
  · rw [natDigits, dif_neg h]
    simp

theorem natDigits_length_le (n w : Nat) (hw : 1 ≤ w) (h : n < 10 ^ w) :
    (natDigits n).length ≤ w := by
  induction n using Nat.strong_induction_on generalizing w with
  | _ n ih =>
    by_cases hn : n < 10
    · rw [natDigits, dif_pos hn]
      simpa using hw
    · rw [natDigits, dif_neg hn]
      rw [List.length_append]
      simp only [List.length_singleton]
      have hw2 : 2 ≤ w := by
        by_contra hc
        have hw1 : w = 1 := by omega
        rw [hw1] at h
        simp at h
        omega
      have hdivlt : n / 10 < 10 ^ (w - 1) := by
        rw [Nat.div_lt_iff_lt_mul (by omega)]
        have : 10 ^ (w - 1) * 10 = 10 ^ w := by
          rw [← pow_succ]
          congr 1
          omega
        omega
      have := ih (n / 10) (Nat.div_lt_self (by omega) (by omega)) (w - 1) (by omega) hdivlt
      omega

theorem digitsVal_replicate_zero (k : Nat) (l : List Nat) :
    digitsVal (List.replicate k 48 ++ l) = digitsVal l := by
  induction k with
  | zero => simp
  | succ k ih =>
    rw [List.replicate_succ, List.cons_append]
    unfold digitsVal at *
    simp only [List.foldl_cons]
    simpa using ih

theorem padDigits_length (w n : Nat) (hw : 1 ≤ w) (h : n < 10 ^ w) :
    (padDigits w n).length = w := by
  unfold padDigits
  rw [List.length_append, List.length_replicate]
  have := natDigits_length_le n w hw h
  omega

theorem digitsVal_padDigits (w n : Nat) : digitsVal (padDigits w n) = n := by
  unfold padDigits
  rw [digitsVal_replicate_zero, digitsVal_natDigits]

theorem padDigits_mem (w n : Nat) : ∀ d ∈ padDigits w n, 48 ≤ d ∧ d ≤ 57 := by
  intro d hd
  rcases List.mem_append.1 hd with hd | hd
  · have := List.eq_of_mem_replicate hd
    omega
  · exact natDigits_mem n d hd

/-- Strip leading and trailing `0x20` bytes (the trim-spaces read
post-processing of Character values). -/
def trimBytes (bs : List Nat) : List Nat :=
  ((bs.dropWhile (· = 32)).reverse.dropWhile (· = 32)).reverse

theorem dropWhile_replicate_append (p : Nat → Bool) (a : Nat) (k : Nat) (l : List Nat)
    (hp : p a = true) :
    (List.replicate k a ++ l).dropWhile p = l.dropWhile p := by
  induction k with
  | zero => simp
  | succ k ih =>
    rw [List.replicate_succ, List.cons_append, List.dropWhile_cons, if_pos hp]
    exact ih

theorem dropWhile_cons_of_neg (p : Nat → Bool) (a : Nat) (l : List Nat)
    (hp : ¬ p a = true) :
    (a :: l).dropWhile p = a :: l := by
  rw [List.dropWhile_cons, if_neg hp]

/-- Trimming the space padding of a canonical byte string (no leading and
no trailing space) recovers it. -/
theorem trimBytes_pad (bs : List Nat) (k : Nat)
    (hcanon : bs = [] ∨ (bs.head? ≠ some 32 ∧ bs.getLast? ≠ some 32)) :
    trimBytes (bs ++ List.replicate k 32) = bs := by
  rcases hcanon with hnil | ⟨hhead, hlast⟩
  · subst hnil
    rw [List.nil_append]
    unfold trimBytes
    have h1 : (List.replicate k (32 : Nat)).dropWhile (· = 32) = [] := by
      have h2 := dropWhile_replicate_append (fun x => decide (x = 32)) 32 k [] (by simp)
      simpa using h2
    rw [h1]
    simp
  · unfold trimBytes
    cases hbs : bs with
    | nil => simp at hbs ⊢
    | cons b rest =>
      rw [hbs] at hhead
      have hb : ¬ ((b : Nat) = 32) := by
        intro he
        exact hhead (by simp [he])
      rw [List.cons_append, dropWhile_cons_of_neg _ _ _ (by simpa using hb)]
      rw [← List.cons_append, List.reverse_append, List.reverse_replicate,
        dropWhile_replicate_append _ _ _ _ (by simp)]
      rw [← hbs]
      cases hrev : bs.reverse with
      | nil =>
        have : bs = [] := by simpa using congrArg List.reverse hrev
        rw [hbs] at this
        cases this
      | cons c rrest =>
        have hc : bs.getLast? = some c := by
          rw [← List.head?_reverse, hrev]
          rfl
        have hcne : ¬ ((c : Nat) = 32) := by
          intro he
          rw [he] at hc
          exact hlast hc
        rw [dropWhile_cons_of_neg _ _ _ (by simpa using hcne), ← hrev]
        simp

/-- The byte value of up to eight LSB-first bits. -/
def byteOf : List Bool → Nat
  | [] => 0
  | b :: bs => (if b then 1 else 0) + 2 * byteOf bs

/-- The first `k` LSB-first bits of a byte. -/
def bitsOfByte : Nat → Nat → List Bool
  | 0, _ => []
  | k + 1, byte => decide (byte % 2 = 1) :: bitsOfByte k (byte / 2)

/-- LSB-first packing of a bit list into bytes (spec §3, null-flag
column). -/
def packBits (bs : List Bool) : List Nat :=
  if bs = [] then [] else byteOf (bs.take 8) :: packBits (bs.drop 8)
termination_by bs.length
decreasing_by
  rename_i h
  have : bs.length ≠ 0 := fun he => h (List.eq_nil_of_length_eq_zero he)
  simp only [List.length_drop]
  omega

/-- Unpacking of `n` LSB-first bits from a byte string. -/
def unpackBits : Nat → List Nat → List Bool
  | 0, _ => []
  | n + 1, [] => List.replicate (n + 1) false
  | n + 1, byte :: rest =>
    if n + 1 ≤ 8 then bitsOfByte (n + 1) byte
    else bitsOfByte 8 byte ++ unpackBits (n + 1 - 8) rest

theorem bitsOfByte_byteOf (bs : List Bool) (k : Nat) (hk : bs.length = k) :
    bitsOfByte k (byteOf bs) = bs := by
  induction bs generalizing k with
  | nil =>
    subst hk
    rfl
  | cons b rest ih =>
    subst hk
    simp only [List.length_cons]
    rw [bitsOfByte]
    have hmod : ((if b then 1 else 0) + 2 * byteOf rest) % 2 = if b then 1 else 0 := by
      cases b <;> simp <;> omega
    have hdiv : ((if b then 1 else 0) + 2 * byteOf rest) / 2 = byteOf rest := by
      cases b <;> simp <;> omega
    rw [show byteOf (b :: rest) = (if b then 1 else 0) + 2 * byteOf rest from rfl,
      hmod, hdiv, ih rest.length rfl]
    cases b <;> simp

theorem unpackBits_packBits_aux : ∀ (n : Nat) (bs : List Bool), bs.length = n →
    unpackBits bs.length (packBits bs) = bs := by
  intro n
  induction n using Nat.strong_induction_on with
  | _ n ih =>
    intro bs hlen
    by_cases hnil : bs = []
    · subst hnil
      rw [packBits]
      simp [unpackBits]
    · rw [packBits, if_neg hnil]
      by_cases h8 : bs.length ≤ 8
      · have htake : bs.take 8 = bs := List.take_all_of_le h8
        have hdrop : bs.drop 8 = [] := List.drop_eq_nil_of_le h8
        rw [htake, hdrop, packBits]
        simp only [if_pos rfl]
        cases hbs : bs with
        | nil => exact absurd hbs hnil
        | cons b rest =>
          rw [← hbs]
          have hlen1 : bs.length = rest.length + 1 := by rw [hbs]; rfl
          rw [hlen1, unpackBits, if_pos (by omega)]
          exact bitsOfByte_byteOf bs _ hlen1
      · have hlen8 : (bs.take 8).length = 8 := by
          rw [List.length_take]
          omega
        cases hbs : bs with
        | nil => exact absurd hbs hnil
        | cons b rest =>
          rw [← hbs]
          have hlen1 : bs.length = rest.length + 1 := by rw [hbs]; rfl
          rw [hlen1, unpackBits, if_neg (by omega)]
          have h1 : bitsOfByte 8 (byteOf (bs.take 8)) = bs.take 8 :=
            bitsOfByte_byteOf _ 8 hlen8
          have hdlen : (bs.drop 8).length = rest.length + 1 - 8 := by
            rw [List.length_drop]
            omega
          have h2 : unpackBits (bs.drop 8).length (packBits (bs.drop 8)) = bs.drop 8 :=
            ih (bs.drop 8).length (by rw [List.length_drop]; omega) (bs.drop 8) rfl
          rw [h1, ← hdlen, h2, List.take_append_drop]

theorem unpackBits_packBits (bs : List Bool) :
    unpackBits bs.length (packBits bs) = bs :=
  unpackBits_packBits_aux bs.length bs rfl

theorem takeWhile_append_of_neg (p : Nat → Bool) (l r : List Nat) (x : Nat)
    (hl : ∀ a ∈ l, p a = true) (hx : ¬ p x = true) :
    (l ++ x :: r).takeWhile p = l := by
  induction l with
  | nil => simpa using List.takeWhile_cons_of_neg (l := r) hx
  | cons a l ih =>
    rw [List.cons_append, List.takeWhile_cons_of_pos (hl a (List.mem_cons_self a l))]
    rw [ih fun a ha => hl a (List.mem_cons_of_mem _ ha)]

theorem dropWhile_append_of_neg (p : Nat → Bool) (l r : List Nat) (x : Nat)
    (hl : ∀ a ∈ l, p a = true) (hx : ¬ p x = true) :
    (l ++ x :: r).dropWhile p = x :: r := by
  induction l with
  | nil => simpa using List.dropWhile_cons_of_neg (l := r) hx
  | cons a l ih =>
    rw [List.cons_append, List.dropWhile_cons_of_pos (hl a (List.mem_cons_self a l))]
    exact ih fun a ha => hl a (List.mem_cons_of_mem _ ha)

theorem takeWhile_of_all (p : Nat → Bool) (l : List Nat) (hl : ∀ a ∈ l, p a = true) :
    l.takeWhile p = l := by
  induction l with
  | nil => rfl
  | cons a l ih =>
    rw [List.takeWhile_cons_of_pos (hl a (List.mem_cons_self a l))]
    rw [ih fun a ha => hl a (List.mem_cons_of_mem _ ha)]

theorem dropWhile_of_all (p : Nat → Bool) (l : List Nat) (hl : ∀ a ∈ l, p a = true) :
    l.dropWhile p = [] := by
  induction l with
  | nil => rfl
  | cons a l ih =>
    rw [List.dropWhile_cons_of_pos (hl a (List.mem_cons_self a l))]
    exact ih fun a ha => hl a (List.mem_cons_of_mem _ ha)

/-! ## Numeric / Float text format (spec §4.6, N and F)

A Numeric value is represented by its scaled integer: the stored number
times `10^decimals`.  The encoder renders sign, integer digits and — when
`decimals > 0` — a point followed by exactly `decimals` fraction digits,
right-justified with spaces; the parser trims spaces and re-reads sign,
integer and fraction digits. -/

/-- The unpadded ASCII rendering of a scaled decimal. -/
def numBody (dec : Nat) (m : Int) : List Nat :=
  (if m < 0 then [45] else []) ++ natDigits (m.natAbs / 10 ^ dec) ++
    (if 0 < dec then 46 :: padDigits dec (m.natAbs % 10 ^ dec) else [])

/-- Right-justified fixed-width rendering (the slot of an N/F column). -/
def numFormat (width dec : Nat) (m : Int) : List Nat :=
  List.replicate (width - (numBody dec m).length) 32 ++ numBody dec m

/-- The magnitude of a sign-free digit string `intdigits [. fracdigits]`,
as a scaled natural: fraction digits are scaled up to `decimals` places. -/
def numParseMag (dec : Nat) (t2 : List Nat) : Nat :=
  digitsVal (t2.takeWhile (· ≠ 46)) * 10 ^ dec +
    digitsVal ((t2.dropWhile (· ≠ 46)).drop 1) *
      10 ^ (dec - ((t2.dropWhile (· ≠ 46)).drop 1).length)

/-- Parse an N/F slot back into the scaled integer: trim leading spaces,
read an optional minus sign, then integer and fraction digits. -/
def numParse (dec : Nat) (slot : List Nat) : Int :=
  let t := slot.dropWhile (· = 32)
  if t.head? = some 45 then -(numParseMag dec t.tail : Int)
  else (numParseMag dec t : Int)

theorem numParse_numFormat (width dec : Nat) (m : Int) :
    numParse dec (numFormat width dec m) = m := by
  have hpow : 0 < 10 ^ dec := Nat.pos_pow_of_pos dec (by omega)
  have hfrac : m.natAbs % 10 ^ dec < 10 ^ dec := Nat.mod_lt _ hpow
  -- the sign-free digits part and its properties
  set body2 : List Nat := natDigits (m.natAbs / 10 ^ dec) ++
    (if 0 < dec then 46 :: padDigits dec (m.natAbs % 10 ^ dec) else []) with hbody2
  have hhead2 : ∃ d rest, body2 = d :: rest ∧ 48 ≤ d ∧ d ≤ 57 := by
    rcases hd : natDigits (m.natAbs / 10 ^ dec) with _ | ⟨d, rest⟩
    · exact absurd hd (natDigits_ne_nil _)
    · refine ⟨d,
        rest ++ (if 0 < dec then 46 :: padDigits dec (m.natAbs % 10 ^ dec) else []),
        by rw [hbody2, hd]; simp, ?_⟩
      have := natDigits_mem (m.natAbs / 10 ^ dec) d (by rw [hd]; exact List.mem_cons_self d rest)
      exact this
  -- after dropping the space padding we are left with sign ++ body2
  have hdrop : (numFormat width dec m).dropWhile (· = 32) =
      (if m < 0 then [45] else []) ++ body2 := by
    unfold numFormat numBody
    rw [List.append_assoc, ← hbody2]
    rw [dropWhile_replicate_append _ _ _ _ (by simp)]
    obtain ⟨d, rest, hb2, hd1, hd2⟩ := hhead2
    by_cases hm : m < 0
    · simp only [hm, if_true]
      rw [List.cons_append, List.nil_append]
      exact dropWhile_cons_of_neg _ _ _ (by simp)
    · simp only [hm, if_false]
      rw [List.nil_append, hb2]
      exact dropWhile_cons_of_neg _ _ _ (by simp; omega)
  -- the digits of body2 split at the decimal point
  have hip : body2.takeWhile (· ≠ 46) = natDigits (m.natAbs / 10 ^ dec) := by
    rw [hbody2]
    by_cases hdec : 0 < dec
    · simp only [hdec, if_true]
      refine takeWhile_append_of_neg _ _ _ _ ?_ (by simp)
      intro a ha
      have := natDigits_mem _ a ha
      simp
      omega
    · simp only [hdec, if_false, List.append_nil]
      refine takeWhile_of_all _ _ ?_
      intro a ha
      have := natDigits_mem _ a ha
      simp
      omega
  have hfp : (body2.dropWhile (· ≠ 46)).drop 1 =
      (if 0 < dec then padDigits dec (m.natAbs % 10 ^ dec) else []) := by
    rw [hbody2]
    by_cases hdec : 0 < dec
    · simp only [hdec, if_true]
      rw [dropWhile_append_of_neg _ _ _ _ ?_ (by simp)]
      · simp
      · intro a ha
        have := natDigits_mem _ a ha
        simp
        omega
    · simp only [hdec, if_false, List.append_nil]
      rw [dropWhile_of_all _ _ ?_]
      · simp
      · intro a ha
        have := natDigits_mem _ a ha
        simp
        omega
  -- the magnitude of body2 is |m|
  have hmag : numParseMag dec body2 = m.natAbs := by
    unfold numParseMag
    rw [hip, hfp, digitsVal_natDigits]
    by_cases hdec : 0 < dec
    · simp only [hdec, if_true]
      rw [padDigits_length dec _ (by omega) hfrac, digitsVal_padDigits]
      simp only [Nat.sub_self, pow_zero, mul_one]
      have h1 := Nat.div_add_mod m.natAbs (10 ^ dec)
      rw [Nat.mul_comm (10 ^ dec) _] at h1
      exact h1
    · have hdec0 : dec = 0 := by omega
      subst hdec0
      simp [digitsVal]
  unfold numParse
  rw [hdrop]
  obtain ⟨d, rest, hb2, hd1, hd2⟩ := hhead2
  by_cases hm : m < 0
  · simp only [hm, if_true, List.cons_append, List.nil_append]
    rw [if_pos (by rfl)]
    rw [show ((45 : Nat) :: body2).tail = body2 from rfl, hmag]
    omega
  · simp only [hm, if_false, List.nil_append]
    rw [if_neg (by rw [hb2]; simp; omega)]
    rw [hmag]
    omega

/-! ## Column model and typed values (spec §3, §4.6, §6) -/

/-- The fifteen column types of §6. -/
inductive DataType where
  | character | memo | varchar | numeric | integer | float | currency | double
  | date | datetime | logical | blob | varbinary | general | picture
deriving DecidableEq

/-- The ASCII type byte of each column type (§6). -/
def DataType.byteCode : DataType → Nat
  | .character => 0x43
  | .memo => 0x4D
  | .varchar => 0x56
  | .numeric => 0x4E
  | .integer => 0x49
  | .float => 0x46
  | .currency => 0x59
  | .double => 0x42
  | .date => 0x44
  | .datetime => 0x54
  | .logical => 0x4C
  | .blob => 0x57
  | .varbinary => 0x51
  | .general => 0x47
  | .picture => 0x50

/-- Variable-length column types: Varchar and Varbinary carry a
length-in-last-byte bit in the null-flag column (§3). -/
def DataType.isVar : DataType → Bool
  | .varchar => true
  | .varbinary => true
  | _ => false

/-- The column metadata the row codec consumes. -/
structure Column where
  dtype : DataType
  length : Nat
  decimals : Nat
  nullable : Bool
deriving DecidableEq

/-- Modelled from the spec: the typed value sum of §9 — bytes for
Character/Varchar/Varbinary payloads, scaled integers for
Numeric/Float/Currency, the IEEE-754 bit pattern for Double, calendar
fields for Date, julian day + milliseconds for DateTime, a block index for
the memo-address types, and a distinct null. -/
inductive Value where
  | vnull
  | vbytes (bs : List Nat)
  | vint (i : Int)
  | vnum (scaled : Int)
  | vcurrency (units : Int)
  | vdouble (bits : Nat)
  | vdate (y mo d : Nat)
  | vdatetime (julian msec : Nat)
  | vbool (b : Bool)
  | vmemo (block : Nat)
deriving DecidableEq

/-- The null bit recorded for a nullable column (§3). -/
def nullBitOf (c : Column) (v : Value) : Bool :=
  c.nullable && decide (v = .vnull)

/-- The variable-length bit recorded for a Varchar/Varbinary column:
set when the payload is shorter than the slot, so that the actual length
lives in the slot's last byte (§4.6). -/
def varBitOf (c : Column) (v : Value) : Bool :=
  c.dtype.isVar &&
    (match v with
     | .vbytes bs => decide (bs.length < c.length)
     | _ => false)

/-- Modelled from the spec: §4.6 — encode one value into its fixed-width
column slot.  A null in a nullable column zeroes the slot (the null bit
carries the information); overflowing values are a fatal per-row error. -/
def encodeSlot (trim : Bool) (c : Column) (v : Value) : Except String (List Nat) :=
  if c.nullable ∧ v = .vnull then .ok (List.replicate c.length 0)
  else
    match c.dtype, v with
    | .character, .vbytes bs =>
      if bs.length ≤ c.length then .ok (bs ++ List.replicate (c.length - bs.length) 32)
      else .error "character value does not fit column"
    | .varchar, .vbytes bs =>
      if bs.length < c.length then
        .ok (bs ++ List.replicate (c.length - 1 - bs.length) 0 ++ [bs.length])
      else if bs.length = c.length then .ok bs
      else .error "varchar value does not fit column"
    | .varbinary, .vbytes bs =>
      if bs.length < c.length then
        .ok (bs ++ List.replicate (c.length - 1 - bs.length) 0 ++ [bs.length])
      else if bs.length = c.length then .ok bs
      else .error "varbinary value does not fit column"
    | .numeric, .vnum m =>
      if (numBody c.decimals m).length ≤ c.length then .ok (numFormat c.length c.decimals m)
      else .error "numeric value does not fit column"
    | .float, .vnum m =>
      if (numBody c.decimals m).length ≤ c.length then .ok (numFormat c.length c.decimals m)
      else .error "float value does not fit column"
    | .integer, .vint i => .ok (leBytes 4 (toUnsigned 4 i))
    | .currency, .vcurrency u => .ok (leBytes 8 (toUnsigned 8 u))
    | .double, .vdouble bits => .ok (leBytes 8 bits)
    | .date, .vdate y mo d =>
      if y = 0 ∧ mo = 0 ∧ d = 0 then .ok (List.replicate 8 32)
      else .ok (padDigits 4 y ++ padDigits 2 mo ++ padDigits 2 d)
    | .datetime, .vdatetime j ms => .ok (leBytes 4 j ++ leBytes 4 ms)
    | .logical, .vbool b => .ok [if b then 84 else 70]
    | .logical, .vnull => .ok [63]
    | .memo, .vmemo n => .ok (leBytes 4 n)
    | .blob, .vmemo n => .ok (leBytes 4 n)
    | .general, .vmemo n => .ok (leBytes 4 n)
    | .picture, .vmemo n => .ok (leBytes 4 n)
    | _, _ => .error "value type does not match column type"

/-- Modelled from the spec: §4.6 — decode one column slot, given the
column's null and variable bits from the null-flag column. -/
def decodeSlot (trim : Bool) (c : Column) (slot : List Nat)
    (nullBit varBit : Bool) : Except String Value :=
  if c.nullable ∧ nullBit then .ok .vnull
  else
    match c.dtype with
    | .character => .ok (.vbytes (if trim then trimBytes slot else slot))
    | .varchar =>
      .ok (.vbytes (if varBit then slot.take (slot.getLastD 0) else slot))
    | .varbinary =>
      .ok (.vbytes (if varBit then slot.take (slot.getLastD 0) else slot))
    | .numeric => .ok (.vnum (numParse c.decimals slot))
    | .float => .ok (.vnum (numParse c.decimals slot))
    | .integer => .ok (.vint (fromUnsigned 4 (leVal slot)))
    | .currency => .ok (.vcurrency (fromUnsigned 8 (leVal slot)))
    | .double => .ok (.vdouble (leVal slot))
    | .date =>
      if slot = List.replicate 8 32 then .ok (.vdate 0 0 0)
      else .ok (.vdate (digitsVal (slot.take 4)) (digitsVal ((slot.drop 4).take 2))
        (digitsVal (slot.drop 6)))
    | .datetime => .ok (.vdatetime (leVal (slot.take 4)) (leVal (slot.drop 4)))
    | .logical =>
      match slot.headD 0 with
      | 84 => .ok (.vbool true)
      | 116 => .ok (.vbool true)
      | 89 => .ok (.vbool true)
      | 121 => .ok (.vbool true)
      | 70 => .ok (.vbool false)
      | 102 => .ok (.vbool false)
      | 78 => .ok (.vbool false)
      | 110 => .ok (.vbool false)
      | 63 => .ok .vnull
      | 32 => .ok .vnull
      | _ => .error "invalid logical value"
    | .memo => .ok (.vmemo (leVal slot))
    | .blob => .ok (.vmemo (leVal slot))
    | .general => .ok (.vmemo (leVal slot))
    | .picture => .ok (.vmemo (leVal slot))

/-- Well-formedness of a value for its column: the value fits the declared
width, matches the column type (or is a null in a nullable or logical
column), and — for Character under each trim mode — is canonical for what
a decode can produce. -/
def wfField (trim : Bool) (c : Column) (v : Value) : Prop :=
  match v with
  | .vnull => c.nullable = true ∨ (c.dtype = .logical ∧ c.length = 1)
  | .vbytes bs =>
    (c.dtype = .character ∧ bs.length ≤ c.length ∧
      (if trim then bs = [] ∨ (bs.head? ≠ some 32 ∧ bs.getLast? ≠ some 32)
       else bs.length = c.length)) ∨
    ((c.dtype = .varchar ∨ c.dtype = .varbinary) ∧ bs.length ≤ c.length ∧ c.length ≤ 255)
  | .vnum m =>
    (c.dtype = .numeric ∨ c.dtype = .float) ∧ (numBody c.decimals m).length ≤ c.length
  | .vint i => c.dtype = .integer ∧ c.length = 4 ∧ -(2 ^ 31) ≤ i ∧ i < 2 ^ 31
  | .vcurrency u => c.dtype = .currency ∧ c.length = 8 ∧ -(2 ^ 63) ≤ u ∧ u < 2 ^ 63
  | .vdouble bits => c.dtype = .double ∧ c.length = 8 ∧ bits < 2 ^ 64
  | .vdate y mo d => c.dtype = .date ∧ c.length = 8 ∧ y < 10000 ∧ mo < 100 ∧ d < 100
  | .vdatetime j ms => c.dtype = .datetime ∧ c.length = 8 ∧ j < 2 ^ 32 ∧ ms < 2 ^ 32
  | .vbool _ => c.dtype = .logical ∧ c.length = 1
  | .vmemo n =>
    (c.dtype = .memo ∨ c.dtype = .blob ∨ c.dtype = .general ∨ c.dtype = .picture) ∧
      c.length = 4 ∧ n < 2 ^ 32

theorem nullBitOf_ne_null (c : Column) (v : Value) (h : v ≠ .vnull) :
    nullBitOf c v = false := by
  unfold nullBitOf
  rw [decide_eq_false h]
  simp

/-- Per-field round trip: a well-formed value encodes into a slot of
exactly the column's width, and decoding that slot with the value's null
and variable bits recovers the value. -/
theorem encodeSlot_decodeSlot (trim : Bool) (c : Column) (v : Value)
    (h : wfField trim c v) :
    ∃ slot, encodeSlot trim c v = .ok slot ∧ slot.length = c.length ∧
      decodeSlot trim c slot (nullBitOf c v) (varBitOf c v) = .ok v := by
  rcases v with _ | bs | i | m | u | bits | ⟨y, mo, d⟩ | ⟨j, ms⟩ | b | n
  case vnull =>
    by_cases hn : c.nullable = true
    · refine ⟨List.replicate c.length 0, ?_, by simp, ?_⟩
      · unfold encodeSlot
        rw [if_pos ⟨hn, rfl⟩]
      · unfold decodeSlot
        rw [if_pos ⟨hn, by simp [nullBitOf, hn]⟩]
    · unfold wfField at h
      rcases h with h | ⟨hdt, hlen⟩
      · exact absurd h hn
      · have hnb : nullBitOf c Value.vnull = false := by
          unfold nullBitOf
          cases hcn : c.nullable
          · rfl
          · exact absurd hcn hn
        refine ⟨[63], ?_, by simp [hlen], ?_⟩
        · unfold encodeSlot
          rw [if_neg (fun hc => hn hc.1), hdt]
        · unfold decodeSlot
          rw [hnb, if_neg (by rintro ⟨_, he⟩; cases he), hdt]
          rfl
  case vbytes =>
    unfold wfField at h
    have hnb : nullBitOf c (Value.vbytes bs) = false := nullBitOf_ne_null c _ (by simp)
    rcases h with ⟨hdt, hfit, hcanon⟩ | ⟨hdt, hfit, h255⟩
    · -- Character
      have hvb : varBitOf c (Value.vbytes bs) = false := by
        unfold varBitOf
        rw [hdt]
        simp [DataType.isVar]
      refine ⟨bs ++ List.replicate (c.length - bs.length) 32, ?_, by simp; omega, ?_⟩
      · unfold encodeSlot
        rw [if_neg (by rintro ⟨_, he⟩; cases he), hdt]
        dsimp only
        rw [if_pos hfit]
      · unfold decodeSlot
        rw [hnb, if_neg (by rintro ⟨_, he⟩; cases he), hdt]
        dsimp only
        by_cases ht : trim = true
        · rw [if_pos ht]
          rw [if_pos ht] at hcanon
          rw [trimBytes_pad bs _ hcanon]
        · rw [if_neg ht]
          rw [if_neg ht] at hcanon
          have h0 : c.length - bs.length = 0 := by omega
          rw [h0]
          simp
    · -- Varchar / Varbinary
      by_cases hshort : bs.length < c.length
      · have hvb : varBitOf c (Value.vbytes bs) = true := by
          unfold varBitOf
          rcases hdt with hdt | hdt <;> rw [hdt] <;> simp [DataType.isVar, hshort]
        have hslot : (bs ++ List.replicate (c.length - 1 - bs.length) 0 ++
            [bs.length]).length = c.length := by
          simp
          omega
        have hlast : (bs ++ List.replicate (c.length - 1 - bs.length) 0 ++
            [bs.length]).getLastD 0 = bs.length := by
          rw [List.getLastD_eq_getLast?, List.getLast?_concat]
          rfl
        have htake : (bs ++ List.replicate (c.length - 1 - bs.length) 0 ++
            [bs.length]).take bs.length = bs := by
          rw [List.append_assoc]
          exact List.take_left' rfl
        rcases hdt with hdt | hdt <;>
          refine ⟨bs ++ List.replicate (c.length - 1 - bs.length) 0 ++
            [bs.length], ?_, hslot, ?_⟩
        · unfold encodeSlot
          rw [if_neg (by rintro ⟨_, he⟩; cases he), hdt]
          dsimp only
          rw [if_pos hshort]
        · unfold decodeSlot
          rw [hnb, if_neg (by rintro ⟨_, he⟩; cases he), hdt]
          dsimp only
          rw [hvb, if_pos rfl, hlast, htake]
        · unfold encodeSlot
          rw [if_neg (by rintro ⟨_, he⟩; cases he), hdt]
          dsimp only
          rw [if_pos hshort]
        · unfold decodeSlot
          rw [hnb, if_neg (by rintro ⟨_, he⟩; cases he), hdt]
          dsimp only
          rw [hvb, if_pos rfl, hlast, htake]
      · have hlen : bs.length = c.length := by omega
        have hvb : varBitOf c (Value.vbytes bs) = false := by
          unfold varBitOf
          rcases hdt with hdt | hdt <;> rw [hdt] <;> simp [DataType.isVar] <;> omega
        rcases hdt with hdt | hdt <;> refine ⟨bs, ?_, hlen, ?_⟩
        · unfold encodeSlot
          rw [if_neg (by rintro ⟨_, he⟩; cases he), hdt]
          dsimp only
          rw [if_neg hshort, if_pos hlen]
        · unfold decodeSlot
          rw [hnb, if_neg (by rintro ⟨_, he⟩; cases he), hdt]
          dsimp only
          rw [hvb]
          simp
        · unfold encodeSlot
          rw [if_neg (by rintro ⟨_, he⟩; cases he), hdt]
          dsimp only
          rw [if_neg hshort, if_pos hlen]
        · unfold decodeSlot
          rw [hnb, if_neg (by rintro ⟨_, he⟩; cases he), hdt]
          dsimp only
          rw [hvb]
          simp
  case vint =>
    obtain ⟨hdt, hlen, hlo, hhi⟩ := h
    have hnb : nullBitOf c (Value.vint i) = false := nullBitOf_ne_null c _ (by simp)
    refine ⟨leBytes 4 (toUnsigned 4 i), ?_, by rw [leBytes_length, hlen], ?_⟩
    · unfold encodeSlot
      rw [if_neg (by rintro ⟨_, he⟩; cases he), hdt]
    · unfold decodeSlot
      rw [hnb, if_neg (by rintro ⟨_, he⟩; cases he), hdt]
      dsimp only
      rw [leVal_leBytes 4 _ (toUnsigned_lt 4 i),
        fromUnsigned_toUnsigned 4 i (2 ^ 31) (by norm_num) hlo hhi]
  case vnum =>
    obtain ⟨hdt, hfit⟩ := h
    have hnb : nullBitOf c (Value.vnum m) = false := nullBitOf_ne_null c _ (by simp)
    have hlen : (numFormat c.length c.decimals m).length = c.length := by
      unfold numFormat
      simp
      omega
    rcases hdt with hdt | hdt <;>
      refine ⟨numFormat c.length c.decimals m, ?_, hlen, ?_⟩
    · unfold encodeSlot
      rw [if_neg (by rintro ⟨_, he⟩; cases he), hdt]
      dsimp only
      rw [if_pos hfit]
    · unfold decodeSlot
      rw [hnb, if_neg (by rintro ⟨_, he⟩; cases he), hdt]
      dsimp only
      rw [numParse_numFormat]
    · unfold encodeSlot
      rw [if_neg (by rintro ⟨_, he⟩; cases he), hdt]
      dsimp only
      rw [if_pos hfit]
    · unfold decodeSlot
      rw [hnb, if_neg (by rintro ⟨_, he⟩; cases he), hdt]
      dsimp only
      rw [numParse_numFormat]
  case vcurrency =>
    obtain ⟨hdt, hlen, hlo, hhi⟩ := h
    have hnb : nullBitOf c (Value.vcurrency u) = false := nullBitOf_ne_null c _ (by simp)
    refine ⟨leBytes 8 (toUnsigned 8 u), ?_, by rw [leBytes_length, hlen], ?_⟩
    · unfold encodeSlot
      rw [if_neg (by rintro ⟨_, he⟩; cases he), hdt]
    · unfold decodeSlot
      rw [hnb, if_neg (by rintro ⟨_, he⟩; cases he), hdt]
      dsimp only
      rw [leVal_leBytes 8 _ (toUnsigned_lt 8 u),
        fromUnsigned_toUnsigned 8 u (2 ^ 63) (by norm_num) hlo hhi]
  case vdouble =>
    obtain ⟨hdt, hlen, hlt⟩ := h
    have hnb : nullBitOf c (Value.vdouble bits) = false := nullBitOf_ne_null c _ (by simp)
    refine ⟨leBytes 8 bits, ?_, by rw [leBytes_length, hlen], ?_⟩
    · unfold encodeSlot
      rw [if_neg (by rintro ⟨_, he⟩; cases he), hdt]
    · unfold decodeSlot
      rw [hnb, if_neg (by rintro ⟨_, he⟩; cases he), hdt]
      dsimp only
      rw [leVal_leBytes 8 bits (by norm_num at hlt ⊢; omega)]
  case vdate =>
    obtain ⟨hdt, hlen, hy, hmo, hd⟩ := h
    have hnb : nullBitOf c (Value.vdate y mo d) = false := nullBitOf_ne_null c _ (by simp)
    by_cases hzero : y = 0 ∧ mo = 0 ∧ d = 0
    · obtain ⟨hy0, hm0, hd0⟩ := hzero
      refine ⟨List.replicate 8 32, ?_, by simp [hlen], ?_⟩
      · unfold encodeSlot
        rw [if_neg (by rintro ⟨_, he⟩; cases he), hdt]
        dsimp only
        rw [if_pos ⟨hy0, hm0, hd0⟩]
      · unfold decodeSlot
        rw [hnb, if_neg (by rintro ⟨_, he⟩; cases he), hdt]
        dsimp only
        rw [if_pos rfl, hy0, hm0, hd0]
    · have hlen4 : (padDigits 4 y).length = 4 := padDigits_length 4 y (by omega) hy
      have hlen2m : (padDigits 2 mo).length = 2 := padDigits_length 2 mo (by omega) hmo
      have hlen2d : (padDigits 2 d).length = 2 := padDigits_length 2 d (by omega) hd
      have hslotlen : (padDigits 4 y ++ padDigits 2 mo ++ padDigits 2 d).length = 8 := by
        simp [hlen4, hlen2m, hlen2d]
      refine ⟨padDigits 4 y ++ padDigits 2 mo ++ padDigits 2 d, ?_,
        by rw [hslotlen, hlen], ?_⟩
      · unfold encodeSlot
        rw [if_neg (by rintro ⟨_, he⟩; cases he), hdt]
        dsimp only
        rw [if_neg hzero]
      · unfold decodeSlot
        rw [hnb, if_neg (by rintro ⟨_, he⟩; cases he), hdt]
        dsimp only
        have hne : ¬ (padDigits 4 y ++ padDigits 2 mo ++ padDigits 2 d =
            List.replicate 8 32) := by
          intro heq
          have h0 : (padDigits 4 y ++ padDigits 2 mo ++ padDigits 2 d).get? 0 =
              some 32 := by
            rw [heq]
            rfl
          rw [List.append_assoc, List.get?_append (by omega)] at h0
          have h0m : (32 : Nat) ∈ padDigits 4 y := List.get?_mem h0
          have := padDigits_mem 4 y 32 h0m
          omega
        rw [if_neg hne]
        have htake4 : (padDigits 4 y ++ padDigits 2 mo ++ padDigits 2 d).take 4 =
            padDigits 4 y := by
          rw [List.append_assoc]
          exact List.take_left' hlen4
        have hdrop4 : (padDigits 4 y ++ padDigits 2 mo ++ padDigits 2 d).drop 4 =
            padDigits 2 mo ++ padDigits 2 d := by
          rw [List.append_assoc]
          exact List.drop_left' hlen4
        have hdrop6 : (padDigits 4 y ++ padDigits 2 mo ++ padDigits 2 d).drop 6 =
            padDigits 2 d := by
          have hl6 : (padDigits 4 y ++ padDigits 2 mo).length = 6 := by
            simp [hlen4, hlen2m]
          exact List.drop_left' hl6
        rw [htake4, hdrop4, hdrop6, List.take_left' hlen2m]
        rw [digitsVal_padDigits, digitsVal_padDigits, digitsVal_padDigits]
  case vdatetime =>
    obtain ⟨hdt, hlen, hj, hms⟩ := h
    have hnb : nullBitOf c (Value.vdatetime j ms) = false := nullBitOf_ne_null c _ (by simp)
    have hjlen : (leBytes 4 j).length = 4 := leBytes_length 4 j
    refine ⟨leBytes 4 j ++ leBytes 4 ms, ?_,
      by rw [List.length_append, leBytes_length, leBytes_length, hlen], ?_⟩
    · unfold encodeSlot
      rw [if_neg (by rintro ⟨_, he⟩; cases he), hdt]
    · unfold decodeSlot
      rw [hnb, if_neg (by rintro ⟨_, he⟩; cases he), hdt]
      dsimp only
      rw [List.take_left' hjlen, List.drop_left' hjlen]
      rw [leVal_leBytes 4 j (by norm_num at hj ⊢; omega),
        leVal_leBytes 4 ms (by norm_num at hms ⊢; omega)]
  case vbool =>
    obtain ⟨hdt, hlen⟩ := h
    have hnb : nullBitOf c (Value.vbool b) = false := nullBitOf_ne_null c _ (by simp)
    refine ⟨[if b then 84 else 70], ?_, by simp [hlen], ?_⟩
    · unfold encodeSlot
      rw [if_neg (by rintro ⟨_, he⟩; cases he), hdt]
    · unfold decodeSlot
      rw [hnb, if_neg (by rintro ⟨_, he⟩; cases he), hdt]
      cases b <;> rfl
  case vmemo =>
    obtain ⟨hdt, hlen, hlt⟩ := h
    have hnb : nullBitOf c (Value.vmemo n) = false := nullBitOf_ne_null c _ (by simp)
    have hdecode : leVal (leBytes 4 n) = n :=
      leVal_leBytes 4 n (by norm_num at hlt ⊢; omega)
    rcases hdt with hdt | hdt | hdt | hdt <;>
      refine ⟨leBytes 4 n, ?_, by rw [leBytes_length, hlen], ?_⟩ <;>
      first
      | (unfold encodeSlot
         rw [if_neg (by rintro ⟨_, he⟩; cases he), hdt])
      | (unfold decodeSlot
         rw [hnb, if_neg (by rintro ⟨_, he⟩; cases he), hdt]
         dsimp only
         rw [hdecode])
/-! ## Row assembly (spec §3 Record / Null-flag column, §4.6) -/

/-- Modelled from the spec: encode the column slots of a row in column
order, collecting the null bits of the nullable columns and the variable
bits of the Varchar/Varbinary columns (in column order, the two flag sets
kept apart, §3). -/
def encodeFields (trim : Bool) : List Column → List Value →
    Except String (List Nat × List Bool × List Bool)
  | [], [] => .ok ([], [], [])
  | c :: cs, v :: vs =>
    match encodeSlot trim c v with
    | .error e => .error e
    | .ok slot =>
      match encodeFields trim cs vs with
      | .error e => .error e
      | .ok (bytes, nfs, vfs) =>
        .ok (slot ++ bytes,
          (if c.nullable then [nullBitOf c v] else []) ++ nfs,
          (if c.dtype.isVar then [varBitOf c v] else []) ++ vfs)
  | _, _ => .error "column and value counts differ"

/-- Modelled from the spec: decode the column slots of a row in column
order, consuming one null bit per nullable column and one variable bit per
Varchar/Varbinary column. -/
def decodeFields (trim : Bool) : List Column → List Nat → List Bool → List Bool →
    Except String (List Value)
  | [], _, _, _ => .ok []
  | c :: cs, bytes, nfs, vfs =>
    match decodeSlot trim c (bytes.take c.length)
        (if c.nullable then nfs.headD false else false)
        (if c.dtype.isVar then vfs.headD false else false) with
    | .error e => .error e
    | .ok v =>
      match decodeFields trim cs (bytes.drop c.length)
          (if c.nullable then nfs.tail else nfs)
          (if c.dtype.isVar then vfs.tail else vfs) with
      | .error e => .error e
      | .ok vs => .ok (v :: vs)

/-- Total width of the column slots of one record (excluding the deletion
marker and the synthesized null-flag column). -/
def sumLengths (cols : List Column) : Nat := (cols.map Column.length).sum

/-- Number of nullable columns — one null bit each (§3). -/
def countNullable (cols : List Column) : Nat := (cols.filter Column.nullable).length

/-- Number of variable-length columns — one variable bit each (§3). -/
def countVar (cols : List Column) : Nat :=
  (cols.filter (fun c => c.dtype.isVar)).length

/-- Modelled from the spec: encode a full record — deletion marker byte
(`0x20` active / `0x2A` deleted), the column slots, and, when any nullable
or variable column exists, the packed null-flag bitmap (null bits first,
then variable bits, LSB-first). -/
def encodeRow (trim : Bool) (cols : List Column) (deleted : Bool) (vals : List Value) :
    Except String (List Nat) :=
  match encodeFields trim cols vals with
  | .error e => .error e
  | .ok (bytes, nfs, vfs) =>
    .ok ((if deleted then 42 else 32) ::
      (bytes ++ (if nfs.length + vfs.length = 0 then [] else packBits (nfs ++ vfs))))

/-- Modelled from the spec: decode a full record — check the deletion
marker, split off the trailing null-flag bitmap, unpack its bits and decode
the column slots. -/
def decodeRow (trim : Bool) (cols : List Column) (bytes : List Nat) :
    Except String (Bool × List Value) :=
  match bytes with
  | [] => .error "incomplete row"
  | marker :: rest =>
    if marker = 32 ∨ marker = 42 then
      match decodeFields trim cols (rest.take (sumLengths cols))
          ((unpackBits (countNullable cols + countVar cols)
            (rest.drop (sumLengths cols))).take (countNullable cols))
          ((unpackBits (countNullable cols + countVar cols)
            (rest.drop (sumLengths cols))).drop (countNullable cols)) with
      | .error e => .error e
      | .ok vs => .ok (decide (marker = 42), vs)
    else .error "invalid deletion marker"

/-- Field-list round trip: well-formed values encode into slots totalling
the declared record width, with one null bit per nullable column and one
variable bit per variable column, and decode back to the same values. -/
theorem encodeFields_decodeFields (trim : Bool) :
    ∀ (cols : List Column) (vals : List Value),
      List.Forall₂ (wfField trim) cols vals →
      ∃ bytes nfs vfs, encodeFields trim cols vals = .ok (bytes, nfs, vfs) ∧
        bytes.length = sumLengths cols ∧ nfs.length = countNullable cols ∧
        vfs.length = countVar cols ∧
        decodeFields trim cols bytes nfs vfs = .ok vals := by
  intro cols vals hwf
  induction hwf with
  | nil =>
    exact ⟨[], [], [], rfl, rfl, rfl, rfl, rfl⟩
  | cons hcv htail ih =>
    rename_i c v cs vs
    obtain ⟨slot, hslot, hslotlen, hdec⟩ := encodeSlot_decodeSlot trim c v hcv
    obtain ⟨bytes, nfs, vfs, henc, hblen, hnlen, hvlen, hdecs⟩ := ih
    refine ⟨slot ++ bytes, (if c.nullable then [nullBitOf c v] else []) ++ nfs,
      (if c.dtype.isVar then [varBitOf c v] else []) ++ vfs, ?_, ?_, ?_, ?_, ?_⟩
    · rw [encodeFields, hslot, henc]
    · rw [List.length_append, hslotlen, hblen]
      rfl
    · rw [List.length_append, hnlen]
      by_cases hcn : c.nullable <;>
        simp [countNullable, List.filter, hcn] <;> omega
    · rw [List.length_append, hvlen]
      by_cases hcv2 : c.dtype.isVar <;>
        simp [countVar, List.filter, hcv2] <;> omega
    · rw [decodeFields]
      rw [List.take_left' hslotlen, List.drop_left' hslotlen]
      have hnb_arg : (if c.nullable then
          (((if c.nullable then [nullBitOf c v] else []) ++ nfs).headD false)
          else false) = nullBitOf c v := by
        by_cases hcn : c.nullable
        · simp [hcn]
        · have hf : c.nullable = false := by simpa using hcn
          simp [nullBitOf, hf]
      have hvb_arg : (if c.dtype.isVar then
          (((if c.dtype.isVar then [varBitOf c v] else []) ++ vfs).headD false)
          else false) = varBitOf c v := by
        by_cases hcv2 : c.dtype.isVar
        · simp [hcv2]
        · have hf : c.dtype.isVar = false := by simpa using hcv2
          simp [varBitOf, hf]
      have hnfs_tail : (if c.nullable then
          (((if c.nullable then [nullBitOf c v] else []) ++ nfs).tail)
          else ((if c.nullable then [nullBitOf c v] else []) ++ nfs)) = nfs := by
        by_cases hcn : c.nullable <;> simp [hcn]
      have hvfs_tail : (if c.dtype.isVar then
          (((if c.dtype.isVar then [varBitOf c v] else []) ++ vfs).tail)
          else ((if c.dtype.isVar then [varBitOf c v] else []) ++ vfs)) = vfs := by
        by_cases hcv2 : c.dtype.isVar <;> simp [hcv2]
      rw [hnb_arg, hvb_arg, hnfs_tail, hvfs_tail, hdec, hdecs]

/-- C2: for a row of well-formed values over its declared column list —
every supported column type, nulls included — encoding succeeds and
decoding the encoded record (deletion marker, column slots and the
synthesized null-flag bitmap) returns exactly the original deletion flag
and values. -/
theorem row_roundtrip (trim : Bool) (cols : List Column) (deleted : Bool)
    (vals : List Value) (hwf : List.Forall₂ (wfField trim) cols vals) :
    ∃ buf, encodeRow trim cols deleted vals = .ok buf ∧
      decodeRow trim cols buf = .ok (deleted, vals) := by
  obtain ⟨bytes, nfs, vfs, henc, hblen, hnlen, hvlen, hdecs⟩ :=
    encodeFields_decodeFields trim cols vals hwf
  refine ⟨(if deleted then 42 else 32) ::
    (bytes ++ (if nfs.length + vfs.length = 0 then [] else packBits (nfs ++ vfs))), ?_, ?_⟩
  · rw [encodeRow, henc]
  · rw [decodeRow]
    have hmarker : ((if deleted then (42 : Nat) else 32) = 32 ∨
        (if deleted then (42 : Nat) else 32) = 42) := by
      cases deleted <;> simp
    rw [if_pos hmarker]
    have htake : (bytes ++ (if nfs.length + vfs.length = 0 then []
        else packBits (nfs ++ vfs))).take (sumLengths cols) = bytes := by
      rw [← hblen]
      exact List.take_left _ _
    have hdrop : (bytes ++ (if nfs.length + vfs.length = 0 then []
        else packBits (nfs ++ vfs))).drop (sumLengths cols) =
        (if nfs.length + vfs.length = 0 then [] else packBits (nfs ++ vfs)) := by
      rw [← hblen]
      exact List.drop_left _ _
    rw [htake, hdrop]
    have hbits : unpackBits (countNullable cols + countVar cols)
        (if nfs.length + vfs.length = 0 then [] else packBits (nfs ++ vfs)) =
        nfs ++ vfs := by
      by_cases hz : nfs.length + vfs.length = 0
      · rw [if_pos hz]
        have hn0 : nfs = [] := List.eq_nil_of_length_eq_zero (by omega)
        have hv0 : vfs = [] := List.eq_nil_of_length_eq_zero (by omega)
        rw [hn0, hv0, ← hnlen, ← hvlen, hn0, hv0]
        rfl
      · rw [if_neg hz]
        have hlen : countNullable cols + countVar cols = (nfs ++ vfs).length := by
          rw [List.length_append, hnlen, hvlen]
        rw [hlen]
        exact unpackBits_packBits (nfs ++ vfs)
    rw [hbits, List.take_left' hnlen, List.drop_left' hnlen, hdecs]
    cases deleted <;> rfl

/-- C2 witness: a three-column row — nullable Varchar `"ab"` in a width-5
slot, Integer −7, and a null in a nullable Logical column — encodes and
decodes back identically (deleted flag false); the null-flag column holds
the two null bits then the variable bit. -/
theorem row_roundtrip_witness :
    ∃ buf,
      encodeRow true
        [⟨.varchar, 5, 0, true⟩, ⟨.integer, 4, 0, false⟩, ⟨.logical, 1, 0, true⟩]
        false
        [.vbytes [97, 98], .vint (-7), .vnull] = .ok buf ∧
      decodeRow true
        [⟨.varchar, 5, 0, true⟩, ⟨.integer, 4, 0, false⟩, ⟨.logical, 1, 0, true⟩]
        buf = .ok (false, [.vbytes [97, 98], .vint (-7), .vnull]) := by
  exact row_roundtrip true
    [⟨.varchar, 5, 0, true⟩, ⟨.integer, 4, 0, false⟩, ⟨.logical, 1, 0, true⟩]
    false
    [.vbytes [97, 98], .vint (-7), .vnull]
    (by
      refine List.Forall₂.cons ?_ (List.Forall₂.cons ?_
        (List.Forall₂.cons ?_ List.Forall₂.nil))
      · exact Or.inr ⟨Or.inl rfl, by decide, by decide⟩
      · exact ⟨rfl, rfl, by norm_num, by norm_num⟩
      · exact Or.inl rfl)

end GoDBase
